import Mathlib

/-!
Shallow embedding of `graphql-parser`'s `src/common.rs` (the value/type
grammar core): the literal decoder (`unquote_string`,
`unquote_block_string`), the numeric model (`Number`, `BigNumber`), and
the combinator grammar engine (`value`, `default_value`, `arguments`,
`directives`, `parse_type`).

Rust `&str` values are modelled as `String`/`List Char`; byte lengths and
byte slicing (`str::len`, `&s[i..]`) are modelled explicitly through
UTF-8 sizes.  Fallible Rust code returns `Option`/`Except`-like result
types; a Rust `panic!`/`expect` is a dedicated constructor, never an
ordinary error.
-/

namespace GqlParser

/-! ### Rust string primitives -/

/-- UTF-8 encoded size in bytes of one character (`char::len_utf8`). -/
def utf8Len (c : Char) : Nat :=
  if c.toNat < 0x80 then 1
  else if c.toNat < 0x800 then 2
  else if c.toNat < 0x10000 then 3
  else 4

/-- Byte length of a string slice (`str::len`). -/
def byteLen (l : List Char) : Nat := (l.map utf8Len).sum

/-- Unicode `White_Space` test (`char::is_whitespace`). -/
def rustIsWhitespace (c : Char) : Bool :=
  c.toNat = 0x09 ∨ c.toNat = 0x0A ∨ c.toNat = 0x0B ∨ c.toNat = 0x0C ∨
  c.toNat = 0x0D ∨ c.toNat = 0x20 ∨ c.toNat = 0x85 ∨ c.toNat = 0xA0 ∨
  c.toNat = 0x1680 ∨ (0x2000 ≤ c.toNat ∧ c.toNat ≤ 0x200A) ∨
  c.toNat = 0x2028 ∨ c.toNat = 0x2029 ∨ c.toNat = 0x202F ∨
  c.toNat = 0x205F ∨ c.toNat = 0x3000

/-- `str::trim_start`. -/
def rustTrimStart (l : List Char) : List Char := l.dropWhile rustIsWhitespace

/-- `str::trim_end`. -/
def rustTrimEnd (l : List Char) : List Char :=
  (l.reverse.dropWhile rustIsWhitespace).reverse

/-- `str::trim`. -/
def rustTrim (l : List Char) : List Char := rustTrimEnd (rustTrimStart l)

/-- Split on `'\n'`, keeping empty segments (helper for `str::lines`). -/
def mySplit : List Char → List (List Char)
  | [] => [[]]
  | '\n' :: rest => [] :: mySplit rest
  | c :: rest =>
    match mySplit rest with
    | [] => [[c]]
    | r :: rs => (c :: r) :: rs

/-- Strip one trailing `'\r'` (the `\r\n` handling inside `str::lines`). -/
def stripCR (l : List Char) : List Char :=
  if l.getLast? = some '\r' then l.dropLast else l

/-- `str::lines`: split at `'\n'`, dropping a final empty segment (the
final line ending is optional) and stripping `'\r'` from
newline-terminated segments only. -/
def rustLines (l : List Char) : List (List Char) :=
  let segs := mySplit l
  let last := segs.getLast?.getD []
  segs.dropLast.map stripCR ++ (if last.isEmpty then [] else [last])

/-- Drop `n` leading bytes from a slice (`&s[n..]`); `none` when the
index is out of bounds or not on a character boundary (a Rust panic). -/
def dropBytes? : Nat → List Char → Option (List Char)
  | 0, l => some l
  | _ + 1, [] => none
  | n + 1, c :: rest =>
    if utf8Len c ≤ n + 1 then dropBytes? (n + 1 - utf8Len c) rest else none

/-! ### Block-string decoding (`unquote_block_string`) -/

/-- Minimum of a list of naturals, `none` when empty (`Iterator::min`). -/
def myMin? (l : List Nat) : Option Nat :=
  l.foldl (fun acc n => match acc with
    | none => some n
    | some m => some (min m n)) none

/-- Leading-whitespace byte width of a line when it has non-whitespace
content (`line.len() - line.trim_start().len()`), else `none`. -/
def wsWidth? (line : List Char) : Option Nat :=
  let trimmed := byteLen (rustTrimStart line)
  if trimmed > 0 then some (byteLen line - trimmed) else none

/-- Common indentation of a block string interior: minimum
leading-whitespace width over all lines except the first, skipping
whitespace-only lines; `0` when no line qualifies. -/
def blockIndent (interior : List Char) : Nat :=
  (myMin? (((rustLines interior).drop 1).filterMap wsWidth?)).getD 0

/-- Replace every `\"""` by `"""` (`str::replace`). -/
def replaceBQ : List Char → List Char
  | '\\' :: '"' :: '"' :: '"' :: rest => '"' :: '"' :: '"' :: replaceBQ rest
  | c :: rest => c :: replaceBQ rest
  | [] => []

/-- Emission for one subsequent line of a block string: strip the first
`indent` bytes and unescape `\"""` when the line is longer than the
indent, then a newline.  `none` models a byte-slice panic. -/
def emitLine (indent : Nat) (line : List Char) : Option (List Char) :=
  if byteLen line > indent then
    (dropBytes? indent line).map (fun d => replaceBQ d ++ ['\n'])
  else
    some ['\n']

/-- Whether `result[last_line..].trim().is_empty()` holds of a chunk. -/
def isBlankChunk (l : List Char) : Bool := (rustTrim l).isEmpty

/-- Process the subsequent lines of a block string.  The final line's
emission is dropped when blank: this is the
`if result[last_line..].trim().is_empty() { result.truncate(last_line) }`
step, where `last_line` is the byte offset recorded before the last
line was pushed. -/
def blockRest (indent : Nat) : List (List Char) → Option (List Char)
  | [] => some []
  | [l] => (emitLine indent l).map (fun e => if isBlankChunk e then [] else e)
  | l :: l' :: rest => do
    let e ← emitLine indent l
    let r ← blockRest indent (l' :: rest)
    pure (e ++ r)

/-- `unquote_block_string`: strip the `"""` delimiters, dedent by the
common indentation, emit the trimmed first line when non-empty, and trim
the final line when blank.  `none` models a Rust panic (slicing out of
range or off a character boundary); the Rust function otherwise always
returns `Ok`. -/
def unquote_block_string (src : String) : Option String :=
  if 6 ≤ src.length then
    let interior := (src.data.drop 3).take (src.data.length - 6)
    let ls := rustLines interior
    let indent := blockIndent interior
    match ls with
    | [] => some ""
    | f :: rest =>
      let t := rustTrim f
      let fp := if t.isEmpty then [] else t ++ ['\n']
      match rest with
      | [] => some (String.mk (if isBlankChunk fp then [] else fp))
      | _ => (blockRest indent rest).map (fun r => String.mk (fp ++ r))
  else none

/-- Process the subsequent lines of a block string without the final
truncation: every line's emission is kept.  This is the
specification-side untrimmed emission, used to state exactly how much
the `last_line` truncation of `unquote_block_string` removes. -/
def blockRestNoTrim (indent : Nat) : List (List Char) → Option (List Char)
  | [] => some []
  | l :: rest => do
    let e ← emitLine indent l
    let r ← blockRestNoTrim indent rest
    pure (e ++ r)

/-- `unquote_block_string` without its final truncation step: the
delimiters are stripped, the first line trimmed and emitted when
non-empty, and every subsequent line dedented and emitted.  Comparing
against this decode isolates the effect of the trailing
`result.truncate(last_line)`. -/
def unquote_block_string_noTrim (src : String) : Option String :=
  if 6 ≤ src.length then
    let interior := (src.data.drop 3).take (src.data.length - 6)
    let ls := rustLines interior
    let indent := blockIndent interior
    match ls with
    | [] => some ""
    | f :: rest =>
      let t := rustTrim f
      let fp := if t.isEmpty then [] else t ++ ['\n']
      (blockRestNoTrim indent rest).map (fun r => String.mk (fp ++ r))
  else none

/-- Whether a decoded string still ends with a blank-only line (its last
`str::lines` line is whitespace-only). -/
def endsWithBlankLine (s : String) : Bool :=
  match (rustLines s.data).getLast? with
  | none => false
  | some l => (rustTrim l).isEmpty

/-! ### Quoted-string decoding (`unquote_string`) -/

/-- Value of one hexadecimal digit (`char::to_digit(16)`). -/
def hexVal? (c : Char) : Option Nat :=
  if '0' ≤ c ∧ c ≤ '9' then some (c.toNat - 48)
  else if 'a' ≤ c ∧ c ≤ 'f' then some (c.toNat - 87)
  else if 'A' ≤ c ∧ c ≤ 'F' then some (c.toNat - 55)
  else none

/-- Fold hex digits left-to-right with the `u32` overflow check of
`from_str_radix`; fails on the empty digit list or a non-digit. -/
def hexFold (acc : Nat) : List Char → Option Nat
  | [] => some acc
  | c :: rest =>
    match hexVal? c with
    | none => none
    | some d => if acc * 16 + d ≤ 0xFFFFFFFF then hexFold (acc * 16 + d) rest else none

/-- `u32::from_str_radix(s, 16)`: an optional leading `'+'` sign (a
`'-'` is rejected for unsigned types), then one or more hex digits with
overflow checking.  Note the `'+'` acceptance: it is part of the Rust
standard library's numeric grammar. -/
def fromStrRadix16 (cs : List Char) : Option Nat :=
  match cs with
  | [] => none
  | '+' :: [] => none
  | '+' :: ds => hexFold 0 ds
  | ds => hexFold 0 ds

/-- `char::from_u32`: valid for every value except surrogates and
values above `0x10FFFF`. -/
def charFromU32 (n : Nat) : Option Char :=
  if n < 0xD800 ∨ (0xE000 ≤ n ∧ n ≤ 0x10FFFF) then some (Char.ofNat n) else none

/-- Result of `unquote_string`: decoded text, a decode error with a
message, or a Rust panic (the `expect` on a trailing backslash, or an
out-of-range slice). -/
inductive URes where
  | ok (s : String)
  | err (msg : String)
  | pan (msg : String)
deriving DecidableEq

/-- Whether a result is a panic. -/
def URes.isPan : URes → Bool
  | .pan _ => true
  | _ => false

/-- The simple escape arms of the Rust `match` on the escaped
character: `\"`, `\\`, `\/`, `\b` (which the code maps to U+0010, not
backspace), `\f`, `\n`, `\r`, `\t`; `none` for any other character
(the `bad escaped char` arm).  `'u'` is dispatched before this table
is consulted. -/
def simpleEsc? (c : Char) : Option Char :=
  if c = '"' then some '"'
  else if c = '\\' then some '\\'
  else if c = '/' then some '/'
  else if c = 'b' then some '\u0010'
  else if c = 'f' then some '\u000C'
  else if c = 'n' then some '\n'
  else if c = 'r' then some '\r'
  else if c = 't' then some '\t'
  else none

/-- The escape-decoding loop of `unquote_string` over the interior
characters, with the accumulated output.  A backslash as the last
character hits the `expect` and panics. -/
def unquoteLoop : List Char → List Char → URes
  | [], acc => .ok (String.mk acc)
  | ['\\'], _ => .pan "slash cant be at the end"
  | '\\' :: 'u' :: c1 :: c2 :: c3 :: c4 :: rest, acc =>
    match fromStrRadix16 [c1, c2, c3, c4] with
    | some n =>
      match charFromU32 n with
      | some ch => unquoteLoop rest (acc ++ [ch])
      | none => .err (String.mk [c1, c2, c3, c4] ++ " is not a valid unicode code point")
    | none => .err (String.mk [c1, c2, c3, c4] ++ " is not a valid unicode code point")
  | '\\' :: 'u' :: short, _ =>
    .err ("\\u must have 4 characters after it, only found '" ++ String.mk short ++ "'")
  | '\\' :: e :: rest, acc =>
    match simpleEsc? e with
    | some ch => unquoteLoop rest (acc ++ [ch])
    | none => .err ("bad escaped char " ++ String.mk [e])
  | c :: rest, acc => unquoteLoop rest (acc ++ [c])

/-- `unquote_string`: strip the surrounding quotes and decode the escape
sequences.  A slice shorter than two characters makes the interior slice
`s[1..s.len()-1]` panic. -/
def unquote_string (s : String) : URes :=
  if 2 ≤ s.length then unquoteLoop ((s.data.drop 1).dropLast) [] else .pan "byte index out of bounds"

/-- Mirror of the escape scan recording whether it reaches a backslash
with no character after it (the input on which the loop's
`chars.next().expect(..)` panics). -/
def scanDangling : List Char → Bool
  | [] => false
  | ['\\'] => true
  | '\\' :: 'u' :: c1 :: c2 :: c3 :: c4 :: rest =>
    match fromStrRadix16 [c1, c2, c3, c4] with
    | some n =>
      match charFromU32 n with
      | some _ => scanDangling rest
      | none => false
    | none => false
  | '\\' :: 'u' :: _ => false
  | '\\' :: e :: rest =>
    match simpleEsc? e with
    | some _ => scanDangling rest
    | none => false
  | _ :: rest => scanDangling rest

/-! ### Numeric literal model (`Number`, `BigNumber`) -/

/-- `Number(pub u64)`: the unsigned 64-bit magnitude of an integer
literal, as a natural number. -/
structure Number where
  val : Nat
deriving DecidableEq

/-- `BigNumber(pub u128)`: the unsigned 128-bit magnitude of a big
integer literal, as a natural number. -/
structure BigNumber where
  val : Nat
deriving DecidableEq

/-- `i64::MAX`. -/
def i64Max : Nat := 2 ^ 63 - 1

/-- `u64::MAX`. -/
def u64Max : Nat := 2 ^ 64 - 1

/-- `u128::MAX`. -/
def u128Max : Nat := 2 ^ 128 - 1

/-- `Number::as_i64`: `TryInto::<i64>::try_into(self.0)` succeeds, with
the value unchanged, exactly when the magnitude fits `i64`. -/
def Number.as_i64 (n : Number) : Option Int :=
  if n.val ≤ i64Max then some (Int.ofNat n.val) else none

/-- `Number::as_u64`. -/
def Number.as_u64 (n : Number) : Nat := n.val

/-- `BigNumber::as_u64`: `TryInto::<u64>::try_into(self.0)` succeeds,
with the value unchanged, exactly when the magnitude fits `u64`. -/
def BigNumber.as_u64 (b : BigNumber) : Option Nat :=
  if b.val ≤ u64Max then some b.val else none

/-- `BigNumber::as_u128`. -/
def BigNumber.as_u128 (b : BigNumber) : Nat := b.val

/-- Value of one decimal digit. -/
def decVal? (c : Char) : Option Nat :=
  if '0' ≤ c ∧ c ≤ '9' then some (c.toNat - 48) else none

/-- Fold decimal digits with the overflow check of `from_str_radix`
against an unsigned maximum `limit`. -/
def decFold (limit acc : Nat) : List Char → Option Nat
  | [] => some acc
  | c :: rest =>
    match decVal? c with
    | none => none
    | some d => if acc * 10 + d ≤ limit then decFold limit (acc * 10 + d) rest else none

/-- `uN::from_str` (used by `tok.value.parse::<uN>()`): an optional
leading `'+'` (no `'-'` for unsigned types), then one or more decimal
digits, overflow-checked against `limit`. -/
def parseUNat (limit : Nat) (s : String) : Option Nat :=
  match s.data with
  | [] => none
  | '+' :: [] => none
  | '+' :: ds => decFold limit 0 ds
  | ds => decFold limit 0 ds

/-! ### Token stream and combinator engine

Modelled from the spec: the token stream collaborator (`crate::tokenizer`)
and the matching helpers (`crate::helpers::{punct, ident, name, kind}`)
are not part of `src/`; per §6 each token carries a kind from a closed
set, its raw text, and a position, and the engine "queries: is the next
token of kind K (and, for punctuators/identifiers, does its text equal a
specific literal)?, consumes it if so, and otherwise fails without
advancing".  The position is abstracted to the token offset from the
start of the stream.

The `combine` combinator semantics (an external crate) are modelled by
the standard Parsec-style `Consumed/Empty × Ok/Err` contract that
`combine`'s `ParseResult` documents: `or` tries its second alternative
only after an *empty* error, sequencing after consumption turns later
empty errors into consumed errors, and `optional`/`many` stop at an
empty error but propagate consumed errors.  A Rust panic inside a
decoder is propagated as a dedicated `pan` outcome. -/

/-- Token kinds (`tokenizer::Kind`). -/
inductive TKind where
  | Name | IntValue | FloatValue | BigIntValue | StringValue | BlockString | Punctuator
deriving DecidableEq

/-- A classified token: kind plus raw source text. -/
structure Tok where
  kind : TKind
  value : String
deriving DecidableEq

/-- A token cursor: the offset consumed so far (the reported position)
and the remaining tokens. -/
structure TStream where
  offset : Nat
  toks : List Tok
deriving DecidableEq

/-- Parse outcome: consumed/empty ok, consumed/empty error, or a
propagated Rust panic.  Every outcome carries the stream state left
behind (mirroring `combine`'s `&mut input`). -/
inductive PRes (α : Type) where
  | cok (a : α) (s : TStream)
  | eok (a : α) (s : TStream)
  | cerr (msg : String) (s : TStream)
  | eerr (msg : String) (s : TStream)
  | pan (msg : String) (s : TStream)

/-- The stream state an outcome leaves behind. -/
def PRes.rest {α : Type} : PRes α → TStream
  | .cok _ s => s
  | .eok _ s => s
  | .cerr _ s => s
  | .eerr _ s => s
  | .pan _ s => s

/-- A parser over the token cursor. -/
def PParser (α : Type) : Type := TStream → PRes α

/-- Consume the next token when it satisfies `check`; otherwise fail
without advancing. -/
def satisfy {α : Type} (check : Tok → Bool) (f : Tok → α) : PParser α := fun s =>
  match s.toks with
  | [] => .eerr "unexpected token" s
  | t :: rest => if check t then .cok (f t) ⟨s.offset + 1, rest⟩ else .eerr "unexpected token" s

/-- `helpers::punct(lit)`: a punctuator token with the given text. -/
def punct (lit : String) : PParser Unit :=
  satisfy (fun t => t.kind == TKind.Punctuator && t.value == lit) (fun _ => ())

/-- `helpers::ident(lit)`: a name token with the given text. -/
def identT (lit : String) : PParser Unit :=
  satisfy (fun t => t.kind == TKind.Name && t.value == lit) (fun _ => ())

/-- `helpers::name()`: any name token, yielding its text. -/
def nameT : PParser String :=
  satisfy (fun t => t.kind == TKind.Name) (fun t => t.value)

/-- `helpers::kind(k)`: any token of the given kind, yielding it. -/
def kindT (k : TKind) : PParser Tok :=
  satisfy (fun t => t.kind == k) (fun t => t)

/-- `combine::position()`: the current position, consuming nothing. -/
def positionP : PParser Nat := fun s => .eok s.offset s

/-- `Parser::map`. -/
def pmap {α β : Type} (p : PParser α) (f : α → β) : PParser β := fun s =>
  match p s with
  | .cok a s' => .cok (f a) s'
  | .eok a s' => .eok (f a) s'
  | .cerr m s' => .cerr m s'
  | .eerr m s' => .eerr m s'
  | .pan m s' => .pan m s'

/-- Outcome of a literal decoder attached through `and_then`: a value,
a decode error, or a Rust panic. -/
inductive DRes (β : Type) where
  | ok (b : β)
  | err (msg : String)
  | pan (msg : String)

/-- `Parser::and_then`: apply a fallible decoder to the output; a
decode failure becomes an error at the consumed-ness level reached, and
a decoder panic propagates. -/
def pAndThen {α β : Type} (p : PParser α) (f : α → DRes β) : PParser β := fun s =>
  match p s with
  | .cok a s' =>
    match f a with
    | .ok b => .cok b s'
    | .err m => .cerr m s'
    | .pan m => .pan m s'
  | .eok a s' =>
    match f a with
    | .ok b => .eok b s'
    | .err m => .eerr m s'
    | .pan m => .pan m s'
  | .cerr m s' => .cerr m s'
  | .eerr m s' => .eerr m s'
  | .pan m s' => .pan m s'

/-- `Parser::and`: run both, pairing outputs; consumption is sticky, so
an empty failure after consumption is a consumed failure. -/
def andP {α β : Type} (p : PParser α) (q : PParser β) : PParser (α × β) := fun s =>
  match p s with
  | .cok a s' =>
    match q s' with
    | .cok b s'' => .cok (a, b) s''
    | .eok b s'' => .cok (a, b) s''
    | .cerr m s'' => .cerr m s''
    | .eerr m s'' => .cerr m s''
    | .pan m s'' => .pan m s''
  | .eok a s' =>
    match q s' with
    | .cok b s'' => .cok (a, b) s''
    | .eok b s'' => .eok (a, b) s''
    | .cerr m s'' => .cerr m s''
    | .eerr m s'' => .eerr m s''
    | .pan m s'' => .pan m s''
  | .cerr m s' => .cerr m s'
  | .eerr m s' => .eerr m s'
  | .pan m s' => .pan m s'

/-- `Parser::with`: sequence, keep the second output. -/
def withP {α β : Type} (p : PParser α) (q : PParser β) : PParser β :=
  pmap (andP p q) Prod.snd

/-- `Parser::skip`: sequence, keep the first output. -/
def skipP {α β : Type} (p : PParser α) (q : PParser β) : PParser α :=
  pmap (andP p q) Prod.fst

/-- `Parser::or`: ordered choice; the second alternative runs only
after an empty error of the first, from the stream state it left. -/
def orP {α : Type} (p q : PParser α) : PParser α := fun s =>
  match p s with
  | .eerr _ s' => q s'
  | r => r

/-- `combine::optional`: success or `none` on an empty error; a
consumed error propagates. -/
def optionalP {α : Type} (p : PParser α) : PParser (Option α) := fun s =>
  match p s with
  | .cok a s' => .cok (some a) s'
  | .eok a s' => .eok (some a) s'
  | .eerr _ s' => .eok none s'
  | .cerr m s' => .cerr m s'
  | .pan m s' => .pan m s'

/-- Iteration core of `combine::many`: repeat `p` while it succeeds,
stop at an empty error, propagate consumed errors; `consumed` records
whether any iteration consumed input.  The fuel bound is unreachable
for the grammar's parsers (every success consumes a token): running out
models `combine` looping forever on a non-consuming parser and is
reported as a consumed error. -/
def manyAux {α : Type} (p : PParser α) : Nat → TStream → List α → Bool → PRes (List α)
  | 0, s, _, _ => .cerr "fuel" s
  | fuel + 1, s, acc, consumed =>
    match p s with
    | .cok a s' => manyAux p fuel s' (acc ++ [a]) true
    | .eok a s' => manyAux p fuel s' (acc ++ [a]) consumed
    | .eerr _ s' => if consumed then .cok acc s' else .eok acc s'
    | .cerr m s' => .cerr m s'
    | .pan m s' => .pan m s'

/-- `combine::many`. -/
def manyP {α : Type} (p : PParser α) : PParser (List α) := fun s =>
  manyAux p (s.toks.length + 1) s [] false

/-- `combine::many1`: at least one occurrence. -/
def many1P {α : Type} (p : PParser α) : PParser (List α) :=
  pmap (andP p (manyP p)) (fun x => x.1 :: x.2)

/-! ### AST entities (`Value`, `Type`, `Directive`) -/

/-- `Value<'a, T>` with the text parameter instantiated to `String`.
`Object` is a `BTreeMap` modelled as a key-sorted association list;
`Float(f64)` is abstracted to the raw literal text, since no claim
depends on floating-point semantics. -/
inductive Val where
  | var (n : String)
  | bigInt (n : BigNumber)
  | int (n : Number)
  | float (raw : String)
  | str (s : String)
  | boolean (b : Bool)
  | null
  | enum (n : String)
  | list (xs : List Val)
  | object (m : List (String × Val))

/-- `Type<'a, T>`. -/
inductive Ty where
  | namedType (n : String)
  | listType (t : Ty)
  | nonNullType (t : Ty)
deriving DecidableEq

/-- `Directive<'a, T>`. -/
structure Dir where
  position : Nat
  name : String
  arguments : List (String × Val)

/-- Lexicographic (characterwise, hence bytewise for UTF-8) strict
ordering on character lists: the model of `Ord for str`. -/
def charListLt : List Char → List Char → Bool
  | _, [] => false
  | [], _ :: _ => true
  | a :: as, b :: bs =>
    if a.toNat < b.toNat then true
    else if b.toNat < a.toNat then false
    else charListLt as bs

/-- `Ord for str`: lexicographic order on the text. -/
def strLt (a b : String) : Bool := charListLt a.data b.data

/-- Ordered insertion into the association-list model of
`BTreeMap<K, V>`: keys are kept sorted and an equal key is replaced. -/
def btInsert (k : String) (v : Val) : List (String × Val) → List (String × Val)
  | [] => [(k, v)]
  | (k', v') :: rest =>
    if strLt k k' then (k, v) :: (k', v') :: rest
    else if k = k' then (k, v) :: rest
    else (k', v') :: btInsert k v rest

/-- Collect parsed `(name, value)` pairs into the `BTreeMap` model, in
order (`Extend<(K, V)> for BTreeMap`, as used by `many`). -/
def btOfList (ps : List (String × Val)) : List (String × Val) :=
  ps.foldl (fun m kv => btInsert kv.1 kv.2 m) []

/-- `BTreeMap::get`. -/
def btLookup (k : String) : List (String × Val) → Option Val
  | [] => none
  | (k', v) :: rest => if k = k' then some v else btLookup k rest

/-! ### Grammar productions -/

/-- `bigint_value`: a `BigIntValue` token decoded through
`u128::from_str`. -/
def bigint_value : PParser Val :=
  pAndThen (kindT TKind.BigIntValue) (fun tok =>
    match parseUNat u128Max tok.value with
    | some n => .ok (Val.bigInt ⟨n⟩)
    | none => .err "invalid digit found in string")

/-- `int_value`: an `IntValue` token decoded through `u64::from_str`. -/
def int_value : PParser Val :=
  pAndThen (kindT TKind.IntValue) (fun tok =>
    match parseUNat u64Max tok.value with
    | some n => .ok (Val.int ⟨n⟩)
    | none => .err "invalid digit found in string")

/-- `float_value`: a `FloatValue` token; the `f64` decoding is
abstracted to the raw text (see `Val.float`). -/
def float_value : PParser Val :=
  pmap (kindT TKind.FloatValue) (fun tok => Val.float tok.value)

/-- Run `unquote_string` as an `and_then` decoder. -/
def unquoteD (s : String) : DRes String :=
  match unquote_string s with
  | .ok r => .ok r
  | .err m => .err m
  | .pan m => .pan m

/-- Run `unquote_block_string` as an `and_then` decoder (the Rust
function only ever returns `Ok` or panics). -/
def unquoteBlockD (s : String) : DRes String :=
  match unquote_block_string s with
  | some r => .ok r
  | none => .pan "slice index out of bounds"

/-- `string_value`: a `StringValue` token decoded by `unquote_string`. -/
def string_value : PParser Val :=
  pmap (pAndThen (kindT TKind.StringValue) (fun tok => unquoteD tok.value)) Val.str

/-- `block_string_value`: a `BlockString` token decoded by
`unquote_block_string`. -/
def block_string_value : PParser Val :=
  pmap (pAndThen (kindT TKind.BlockString) (fun tok => unquoteBlockD tok.value)) Val.str

/-- `plain_value`: the non-recursive literal alternatives, in source
order (left-associated `or` chain). -/
def plain_value : PParser Val :=
  orP (orP (orP (orP (orP (orP (orP (orP
    (pmap (identT "true") (fun _ => Val.boolean true))
    (pmap (identT "false") (fun _ => Val.boolean false)))
    (pmap (identT "null") (fun _ => Val.null)))
    (pmap nameT Val.enum))
    int_value)
    float_value)
    bigint_value)
    string_value)
    block_string_value

/-- The `$ name` variable alternative of `value`. -/
def varAlt : PParser Val :=
  pmap (withP (punct "$") nameT) Val.var

/-- The `[` … `]` list alternative, parametrized by the recursive
element parser. -/
def listShape (rec : PParser Val) : PParser Val :=
  pmap (skipP (withP (punct "[") (manyP rec)) (punct "]")) Val.list

/-- The `{ name : … }` object alternative, parametrized by the
recursive element parser; pairs are collected into the `BTreeMap`
model. -/
def objShape (rec : PParser Val) : PParser Val :=
  pmap (skipP (withP (punct "\x7b") (manyP (andP (skipP nameT (punct ":")) rec))) (punct "\x7d"))
    (fun ps => Val.object (btOfList ps))

/-- `value`, with explicit recursion fuel: `plain_value`, variable,
list, object, as a left-associated `or` chain.  Fuel 0 (unreachable
from the entry point) fails without consuming. -/
def valueF : Nat → PParser Val
  | 0 => fun s => .eerr "fuel" s
  | fuel + 1 =>
    orP (orP (orP plain_value varAlt)
      (listShape (valueF fuel)))
      (objShape (valueF fuel))

/-- `default_value`, with explicit recursion fuel: identical to `value`
but without the variable alternative, recursing into itself. -/
def default_valueF : Nat → PParser Val
  | 0 => fun s => .eerr "fuel" s
  | fuel + 1 =>
    orP (orP plain_value
      (listShape (default_valueF fuel)))
      (objShape (default_valueF fuel))

/-- `arguments`, parametrized by the fuel passed to `value`: optional
`( name : value … )` with at least one pair, defaulting to the empty
sequence. -/
def argumentsF (fuel : Nat) : PParser (List (String × Val)) :=
  pmap (optionalP (skipP (withP (punct "(")
      (many1P (andP (skipP nameT (punct ":")) (valueF fuel))))
    (punct ")")))
    (fun o => o.getD [])

/-- `directives`, parametrized by the fuel passed to `value`: zero or
more `@ name arguments`, each stamped with the position captured before
the `@`. -/
def directivesF (fuel : Nat) : PParser (List Dir) :=
  manyP (pmap (andP (andP (skipP positionP (punct "@")) nameT) (argumentsF fuel))
    (fun x => ⟨x.1.1, x.1.2, x.2⟩))

/-- `parse_type`, with explicit recursion fuel: a bare name or a
bracketed list type, then an optional `!` wrapping the result. -/
def parse_typeF : Nat → PParser Ty
  | 0 => fun s => .eerr "fuel" s
  | fuel + 1 =>
    pmap (andP
      (orP (pmap nameT Ty.namedType)
        (pmap (skipP (withP (punct "[") (parse_typeF fuel)) (punct "]")) Ty.listType))
      (pmap (optionalP (punct "!")) Option.isSome))
      (fun x => if x.2 then Ty.nonNullType x.1 else x.1)

/-- Entry point `value`: the fuel bound exceeds any possible recursion
depth and iteration count for the stream. -/
def value (s : TStream) : PRes Val := valueF (s.toks.length + 1) s

/-- Entry point `default_value`. -/
def default_value (s : TStream) : PRes Val := default_valueF (s.toks.length + 1) s

/-- Entry point `arguments`. -/
def arguments (s : TStream) : PRes (List (String × Val)) := argumentsF (s.toks.length + 1) s

/-- Entry point `directives`. -/
def directives (s : TStream) : PRes (List Dir) := directivesF (s.toks.length + 1) s

/-- Entry point `parse_type`. -/
def parse_type (s : TStream) : PRes Ty := parse_typeF (s.toks.length + 1) s

/-- Whether a parsed type is not itself a non-null wrapper. -/
def isBare : Ty → Bool
  | .nonNullType _ => false
  | _ => true

/-- Shape produced by `parse_type`: a bare name/list type, optionally
under a single non-null wrapper. -/
def okShape : Ty → Bool
  | .nonNullType t => isBare t
  | _ => true

/-- A parser whose empty-ok outcomes leave the stream unchanged. -/
def EOkS {α : Type} (p : PParser α) : Prop :=
  ∀ s a s', p s = .eok a s' → s' = s

/-- A parser whose empty-error outcomes leave the stream unchanged
(pure backtracking at the empty level). -/
def EErrS {α : Type} (p : PParser α) : Prop :=
  ∀ s m s', p s = .eerr m s' → s' = s

/-- A parser that only ever moves the cursor forward: the stream it
leaves behind is a suffix of the one it was given. -/
def SuffP {α : Type} (p : PParser α) : Prop :=
  ∀ s, ((p s).rest).toks.IsSuffix s.toks

/-- Both empty outcomes of a parser leave the stream unchanged. -/
def Stab {α : Type} (p : PParser α) : Prop := EOkS p ∧ EErrS p

/-- A token list containing no `$` punctuator. -/
def NoDollar (ts : List Tok) : Prop :=
  ∀ t ∈ ts, (t.kind == TKind.Punctuator && t.value == "$") = false

/-! ## Helper lemmas: block-string decoder -/

theorem mySplit_replicate_nl (n : Nat) :
    mySplit (List.replicate n '\n') = List.replicate (n + 1) [] := by
  induction n with
  | zero => rfl
  | succ n ih => simp [List.replicate_succ, mySplit, ih]

theorem mySplit_cons_a (rest : List Char) :
    mySplit ('a' :: rest) =
      match mySplit rest with
      | [] => [['a']]
      | r :: rs => ('a' :: r) :: rs := rfl

theorem rustLines_a_nl (k : Nat) :
    rustLines ('a' :: List.replicate (k + 1) '\n') = ['a'] :: List.replicate k [] := by
  unfold rustLines
  rw [mySplit_cons_a, mySplit_replicate_nl]
  have hrep : List.replicate (k + 1 + 1) ([] : List Char) =
      [] :: (List.replicate k [] ++ [[]]) := by
    rw [List.replicate_succ, List.replicate_succ']
  rw [hrep]
  simp only [List.dropLast_concat, List.getLast?_concat]
  have hmap : (['a'] :: List.replicate k ([] : List Char)).map stripCR =
      ['a'] :: List.replicate k [] := by
    simp [stripCR, List.map_replicate]
  have hdl : ((['a'] :: List.replicate k ([] : List Char)) ++ [[]]).dropLast =
      ['a'] :: List.replicate k [] := List.dropLast_concat
  have hgl : ((['a'] :: List.replicate k ([] : List Char)) ++ [[]]).getLast? = some [] :=
    List.getLast?_concat _
  simp only [List.cons_append] at hdl hgl
  rw [hdl, hgl, hmap]
  simp

theorem filterMap_none_replicate {α β : Type} (f : α → Option β) (x : α)
    (h : f x = none) (n : Nat) : (List.replicate n x).filterMap f = [] := by
  induction n with
  | zero => rfl
  | succ n ih => simp [List.replicate_succ, List.filterMap_cons, h, ih]

theorem blockRest_blank (j : Nat) :
    blockRest 0 (List.replicate (j + 1) []) = some (List.replicate j '\n') := by
  induction j with
  | zero => rfl
  | succ j ih =>
    have h2 : List.replicate (j + 1 + 1) ([] : List Char) =
        [] :: [] :: List.replicate j [] := by
      rw [List.replicate_succ, List.replicate_succ]
    rw [h2]
    have ih' : blockRest 0 ([] :: List.replicate j []) = some (List.replicate j '\n') := by
      rw [← List.replicate_succ]; exact ih
    unfold blockRest
    simp only [emitLine, byteLen, List.map_nil, List.sum_nil, gt_iff_lt, Nat.lt_irrefl,
      if_false, Option.some_bind]
    rw [ih']
    simp [List.replicate_succ]

theorem dropWhile_head_false {p : Char → Bool} :
    ∀ {l : List Char} {c : Char} {rest : List Char},
      l.dropWhile p = c :: rest → p c = false := by
  intro l
  induction l with
  | nil => intro c rest h; simp at h
  | cons a l ih =>
    intro c rest h
    rw [List.dropWhile_cons] at h
    split_ifs at h with ha
    · exact ih h
    · injection h with h1 _
      subst h1
      simpa using ha

theorem dropWhile_idem (p : Char → Bool) (l : List Char) :
    (l.dropWhile p).dropWhile p = l.dropWhile p := by
  cases h : l.dropWhile p with
  | nil => rfl
  | cons c r =>
    rw [List.dropWhile_cons, if_neg]
    simp [dropWhile_head_false h]

theorem trimEnd_concat_ws {c : Char} (hc : rustIsWhitespace c = true) (x : List Char) :
    rustTrimEnd (x ++ [c]) = rustTrimEnd x := by
  unfold rustTrimEnd
  rw [List.reverse_append]
  simp [List.dropWhile_cons, hc]

theorem rustTrim_concat_nl (x : List Char) : rustTrim (x ++ ['\n']) = rustTrim x := by
  unfold rustTrim rustTrimStart
  rw [List.dropWhile_append]
  split_ifs with h
  · rw [List.isEmpty_iff] at h
    rw [h]
    norm_num [List.dropWhile_cons, (by decide : rustIsWhitespace '\n' = true)]
  · exact trimEnd_concat_ws (by decide) _

theorem isBlankChunk_concat_nl (c : List Char) :
    isBlankChunk (c ++ ['\n']) = (rustTrim c).isEmpty := by
  unfold isBlankChunk
  rw [rustTrim_concat_nl]

theorem trimEnd_cons_not_ws {c : Char} (hc : rustIsWhitespace c = false) (r : List Char) :
    rustTrimEnd (c :: r) = c :: rustTrimEnd r := by
  unfold rustTrimEnd
  have hrev : (c :: r).reverse = r.reverse ++ [c] := by simp
  rw [hrev, List.dropWhile_append]
  split_ifs with h
  · rw [List.isEmpty_iff] at h
    rw [h]
    simp [List.dropWhile_cons, hc]
  · rw [List.reverse_append]
    simp

theorem trimEnd_idem (r : List Char) : rustTrimEnd (rustTrimEnd r) = rustTrimEnd r := by
  unfold rustTrimEnd
  rw [List.reverse_reverse, dropWhile_idem]

theorem rustTrim_idem (x : List Char) : rustTrim (rustTrim x) = rustTrim x := by
  unfold rustTrim
  cases hs : rustTrimStart x with
  | nil => simp [rustTrimEnd, rustTrimStart]
  | cons c r =>
    have hc : rustIsWhitespace c = false := dropWhile_head_false hs
    rw [trimEnd_cons_not_ws hc]
    unfold rustTrimStart
    rw [List.dropWhile_cons, if_neg (by simp [hc])]
    rw [trimEnd_cons_not_ws hc, trimEnd_idem]

theorem mem_rustTrim {x : Char} {l : List Char} (h : x ∈ rustTrim l) : x ∈ l := by
  unfold rustTrim rustTrimEnd rustTrimStart at h
  rw [List.mem_reverse] at h
  have h2 := (List.dropWhile_sublist _).subset h
  rw [List.mem_reverse] at h2
  exact (List.dropWhile_sublist _).subset h2

theorem mySplit_cons_ne {c : Char} (hc : c ≠ '\n') (rest : List Char) :
    mySplit (c :: rest) = match mySplit rest with
      | [] => [[c]]
      | r :: rs => (c :: r) :: rs := by
  rw [mySplit]
  exact fun h => hc h

theorem mySplit_no_nl : ∀ (l : List Char), ∀ seg ∈ mySplit l, '\n' ∉ seg := by
  intro l
  induction l using mySplit.induct with
  | case1 =>
    intro seg hseg
    simp only [mySplit, List.mem_singleton] at hseg
    subst hseg
    simp
  | case2 rest ih =>
    intro seg hseg
    rw [show mySplit ('\n' :: rest) = [] :: mySplit rest from rfl] at hseg
    rcases List.mem_cons.1 hseg with rfl | h
    · simp
    · exact ih seg h
  | case3 c rest hc h1 ih =>
    intro seg hseg
    simp only [mySplit_cons_ne (fun h => hc h) rest, h1, List.mem_singleton] at hseg
    subst hseg
    intro hmem
    rw [List.mem_singleton] at hmem
    exact hc hmem.symm
  | case4 c rest hc r rs h1 ih =>
    intro seg hseg
    simp only [mySplit_cons_ne (fun h => hc h) rest, h1] at hseg
    rcases List.mem_cons.1 hseg with rfl | h
    · intro hmem
      rcases List.mem_cons.1 hmem with heq | hmem2
      · exact hc heq.symm
      · exact ih r (by rw [h1]; exact List.mem_cons_self _ _) hmem2
    · exact ih seg (by rw [h1]; exact List.mem_cons_of_mem _ h)

theorem stripCR_subset {x : Char} {l : List Char} (h : x ∈ stripCR l) : x ∈ l := by
  unfold stripCR at h
  split_ifs at h
  · exact List.mem_of_mem_dropLast h
  · exact h

theorem rustLines_no_nl (l : List Char) : ∀ seg ∈ rustLines l, '\n' ∉ seg := by
  intro seg hseg hnl
  simp only [rustLines] at hseg
  rw [List.mem_append] at hseg
  rcases hseg with h | h
  · rw [List.mem_map] at h
    obtain ⟨s0, hs0, rfl⟩ := h
    exact mySplit_no_nl l s0 (List.mem_of_mem_dropLast hs0) (stripCR_subset hnl)
  · split_ifs at h with hle
    · simp at h
    · rw [List.mem_singleton] at h
      subst h
      cases hgl : (mySplit l).getLast? with
      | none => rw [hgl] at hnl; simp at hnl
      | some x =>
        rw [hgl] at hnl
        simp only [Option.getD_some] at hnl
        obtain ⟨ys, hys⟩ := (List.getLast?_eq_some_iff).1 hgl
        exact mySplit_no_nl l x (by rw [hys]; simp) hnl

theorem dropBytes?_subset :
    ∀ (n : Nat) (l d : List Char), dropBytes? n l = some d → ∀ x ∈ d, x ∈ l := by
  intro n l
  induction l generalizing n with
  | nil =>
    intro d h x hx
    cases n with
    | zero =>
      simp only [dropBytes?, Option.some.injEq] at h
      subst h
      exact hx
    | succ n => simp [dropBytes?] at h
  | cons c rest ih =>
    intro d h x hx
    match n with
    | 0 =>
      simp only [dropBytes?, Option.some.injEq] at h
      subst h
      exact hx
    | n + 1 =>
      rw [dropBytes?] at h
      by_cases hle : utf8Len c ≤ n + 1
      · rw [if_pos hle] at h
        exact List.mem_cons_of_mem _ (ih _ _ h x hx)
      · rw [if_neg hle] at h
        exact absurd h (by simp)

theorem replaceBQ_no_nl : ∀ (l : List Char), '\n' ∉ l → '\n' ∉ replaceBQ l := by
  intro l
  induction l using replaceBQ.induct <;> intro h <;> simp_all [replaceBQ]

theorem emitLine_shape {indent : Nat} {l e : List Char} (hl : '\n' ∉ l)
    (h : emitLine indent l = some e) : ∃ c, e = c ++ ['\n'] ∧ '\n' ∉ c := by
  unfold emitLine at h
  split_ifs at h with hgt
  · cases hd : dropBytes? indent l <;> rw [hd] at h <;> simp at h
    refine ⟨replaceBQ _, h.symm, ?_⟩
    exact replaceBQ_no_nl _ (fun hx => hl (dropBytes?_subset _ _ _ hd _ hx))
  · simp only [Option.some.injEq] at h
    exact ⟨[], h.symm, by simp⟩

theorem blockRest_rel (indent : Nat) :
    ∀ (rest : List (List Char)), rest ≠ [] → (∀ l ∈ rest, '\n' ∉ l) →
      ∀ w, blockRestNoTrim indent rest = some w →
        ∃ v pre c, blockRest indent rest = some v ∧
          w = pre ++ (c ++ ['\n']) ∧ '\n' ∉ c ∧
          (pre = [] ∨ ∃ pre0, pre = pre0 ++ ['\n']) ∧
          (((rustTrim c).isEmpty = true ∧ v = pre) ∨
            ((rustTrim c).isEmpty = false ∧ v = w)) := by
  intro rest
  induction rest with
  | nil => intro h; exact absurd rfl h
  | cons l rest ih =>
    intro _ hnl w hw
    cases rest with
    | nil =>
      rw [blockRestNoTrim] at hw
      cases he : emitLine indent l <;> rw [he] at hw
      · simp at hw
      · rename_i e
        have hw' : e = w := by simpa [blockRestNoTrim] using hw
        subst hw'
        obtain ⟨c, rfl, hcnl⟩ := emitLine_shape (hnl l (List.mem_cons_self _ _)) he
        refine ⟨if isBlankChunk (c ++ ['\n']) then [] else c ++ ['\n'], [], c,
          ?_, by simp, hcnl, Or.inl rfl, ?_⟩
        · rw [blockRest, he, Option.map_some']
        · rw [isBlankChunk_concat_nl]
          by_cases hb : (rustTrim c).isEmpty
          · exact Or.inl ⟨hb, by rw [if_pos hb]⟩
          · refine Or.inr ⟨by simpa using hb, ?_⟩
            rw [if_neg hb]
    | cons l2 rest2 =>
      rw [blockRestNoTrim] at hw
      cases he : emitLine indent l <;> rw [he] at hw
      · simp at hw
      · rename_i e
        cases hw2 : blockRestNoTrim indent (l2 :: rest2) <;> rw [hw2] at hw
        · simp at hw
        · rename_i w2
          have hw' : e ++ w2 = w := by simpa using hw
          subst hw'
          obtain ⟨v, pre, c, hbr, hdecomp, hcnl, hpre, hcase⟩ :=
            ih (by simp) (fun x hx => hnl x (List.mem_cons_of_mem _ hx)) w2 hw2
          obtain ⟨ce, rfl, hcenl⟩ := emitLine_shape (hnl l (List.mem_cons_self _ _)) he
          refine ⟨(ce ++ ['\n']) ++ v, (ce ++ ['\n']) ++ pre, c, ?_, ?_, hcnl, ?_, ?_⟩
          · rw [blockRest, he, hbr]
            rfl
          · rw [hdecomp]
            simp [List.append_assoc]
          · rcases hpre with rfl | ⟨pre0, rfl⟩
            · exact Or.inr ⟨ce, by simp⟩
            · exact Or.inr ⟨(ce ++ ['\n']) ++ pre0, by simp⟩
          · rcases hcase with ⟨hb, rfl⟩ | ⟨hb, rfl⟩
            · exact Or.inl ⟨hb, rfl⟩
            · exact Or.inr ⟨hb, rfl⟩

/-! ## C1 -/

/-- C1 counterexample: for the block string `"""a\n\n\n"""` (content
ending in two blank lines) the decoded result is `"a\n\n"`, which still
ends with a blank-only line — the claim that all trailing blank lines
are trimmed is false. -/
theorem c1_counterexample :
    unquote_block_string "\"\"\"a\n\n\n\"\"\"" = some "a\n\n" ∧
      endsWithBlankLine "a\n\n" = true := by
  exact ⟨by decide, by decide⟩

/-- C1 amended: the final truncation trims at most one trailing blank
line.  General conjunct: whenever `unquote_block_string` returns a
result `r` and the truncation-free decode `unquote_block_string_noTrim`
returns `u` on the same slice, either `r = u` (nothing trimmed), or `u`
is exactly `r` followed by one whitespace-only newline-free chunk and
its newline — one blank line removed, never more.  Family conjunct: for
an interior `a` followed by `k+1` newlines (`k ≥ 1` trailing blank-only
lines), the result is `a` followed by `k` newlines, so exactly one
blank line is removed and for `k ≥ 2` the result still ends in the
remaining `k−1` blank-only lines. -/
theorem c1_amended_thm :
    (∀ (src r u : String),
        unquote_block_string src = some r →
        unquote_block_string_noTrim src = some u →
        r = u ∨
          ∃ c : List Char, u.data = r.data ++ (c ++ ['\n']) ∧ '\n' ∉ c ∧
            (rustTrim c).isEmpty = true) ∧
      (∀ k : Nat, 1 ≤ k →
        unquote_block_string
            ⟨'"' :: '"' :: '"' :: 'a' :: (List.replicate (k + 1) '\n' ++ ['"', '"', '"'])⟩ =
          some ⟨'a' :: List.replicate k '\n'⟩) := by
  constructor
  · intro src r u hr hu
    unfold unquote_block_string at hr
    unfold unquote_block_string_noTrim at hu
    by_cases hlen : 6 ≤ src.length
    · rw [if_pos hlen] at hr hu
      dsimp only at hr hu
      rcases hls : rustLines ((src.data.drop 3).take (src.data.length - 6)) with _ | ⟨f, rest⟩
      · rw [hls] at hr hu
        dsimp only at hr hu
        simp only [Option.some.injEq] at hr hu
        left
        rw [← hr, ← hu]
      · rw [hls] at hr hu
        dsimp only at hr hu
        cases rest with
        | nil =>
          dsimp only [blockRestNoTrim] at hr hu
          simp only [Option.map_some', List.append_nil, Option.some.injEq] at hr hu
          by_cases ht : (rustTrim f).isEmpty
          · rw [if_pos ht] at hr hu
            left
            rw [← hr, ← hu]
            simp
          · rw [if_neg ht] at hr hu
            rw [isBlankChunk_concat_nl, rustTrim_idem, if_neg ht] at hr
            left
            rw [← hr, ← hu]
        | cons l' rest' =>
          dsimp only at hr
          cases hw : blockRestNoTrim
              (blockIndent ((src.data.drop 3).take (src.data.length - 6))) (l' :: rest') with
          | none => rw [hw] at hu; simp at hu
          | some w =>
            rw [hw] at hu
            simp only [Option.map_some', Option.some.injEq] at hu
            have hnl : ∀ l ∈ l' :: rest', '\n' ∉ l := by
              intro l hl
              exact rustLines_no_nl _ l (by rw [hls]; exact List.mem_cons_of_mem _ hl)
            obtain ⟨v, pre, c, hv, hwdec, hcnl, hpre, hcase⟩ :=
              blockRest_rel _ (l' :: rest') (by simp) hnl w hw
            rw [hv] at hr
            simp only [Option.map_some', Option.some.injEq] at hr
            rcases hcase with ⟨hblank, rfl⟩ | ⟨hnb, rfl⟩
            · right
              refine ⟨c, ?_, hcnl, hblank⟩
              rw [← hr, ← hu, hwdec]
              dsimp only
              simp [List.append_assoc]
            · left
              rw [← hr, ← hu]
    · rw [if_neg hlen] at hr
      exact absurd hr (by simp)
  · intro k hk
    obtain ⟨j, rfl⟩ : ∃ j, k = j + 1 := ⟨k - 1, by omega⟩
    unfold unquote_block_string
    rw [if_pos (by show 6 ≤ (String.mk _).length; simp [String.length])]
    dsimp only
    have hlen : ('"' :: '"' :: '"' :: 'a' ::
        (List.replicate (j + 1 + 1) '\n' ++ ['"', '"', '"'])).length = j + 9 := by
      simp
    rw [hlen]
    have hint : (('"' :: '"' :: '"' :: 'a' ::
          (List.replicate (j + 1 + 1) '\n' ++ ['"', '"', '"'])).drop 3).take (j + 9 - 6) =
        'a' :: List.replicate (j + 1 + 1) '\n' := by
      simp only [List.drop_succ_cons, List.drop_zero]
      have h9 : j + 9 - 6 = (j + 1 + 1) + 1 := by omega
      rw [h9]
      simp only [List.take_succ_cons]
      rw [List.take_left' (by simp)]
    rw [hint, rustLines_a_nl]
    have hindent : blockIndent ('a' :: List.replicate (j + 1 + 1) '\n') = 0 := by
      unfold blockIndent
      rw [rustLines_a_nl]
      simp only [List.drop_succ_cons, List.drop_zero]
      rw [filterMap_none_replicate wsWidth? [] (by decide)]
      rfl
    rw [hindent]
    have hrest : List.replicate (j + 1) ([] : List Char) = [] :: List.replicate j [] :=
      List.replicate_succ _ _
    rw [hrest]
    dsimp only
    rw [← hrest, blockRest_blank j]
    have htrim : rustTrim ['a'] = ['a'] := by decide
    rw [htrim]
    simp [List.replicate_succ]

/-- C1 amended witness: the general conjunct instantiated on the block
string `"""a\n\n\n"""` (result `"a\n\n"`, untrimmed `"a\n\n\n"`), and
the family conjunct at `k = 2`. -/
theorem c1_amended_witness :
    (("a\n\n" : String) = "a\n\n\n" ∨
        ∃ c : List Char, ("a\n\n\n" : String).data = ("a\n\n" : String).data ++ (c ++ ['\n']) ∧
          '\n' ∉ c ∧ (rustTrim c).isEmpty = true) ∧
      unquote_block_string
          ⟨'"' :: '"' :: '"' :: 'a' :: (List.replicate 3 '\n' ++ ['"', '"', '"'])⟩ =
        some ⟨'a' :: List.replicate 2 '\n'⟩ :=
  ⟨c1_amended_thm.1 "\"\"\"a\n\n\n\"\"\"" "a\n\n" "a\n\n\n" (by decide) (by decide),
    c1_amended_thm.2 2 (by decide)⟩

/-! ## C2 -/

/-- C2: evaluating the code at the failing input.  The quoted slice
`"\u+041"` is decoded to `"A"`, not rejected: `u32::from_str_radix`
accepts the leading `'+'` sign, so the four characters after `\u` need
not all be hex digits, contradicting the claim (and the spec sentence)
that such an escape is a decode error. -/
theorem c2_bug_eval :
    unquote_string "\"\\u+041\"" = .ok "A" ∧ fromStrRadix16 ['+', '0', '4', '1'] = some 65 := by
  exact ⟨by decide, by decide⟩

/-! ## C3 -/

/-- Helper for C3: the decoding loop panics exactly when the escape
scan reaches a backslash with nothing after it. -/
theorem unquoteLoop_isPan (cs acc : List Char) :
    (unquoteLoop cs acc).isPan = scanDangling cs := by
  induction cs, acc using unquoteLoop.induct <;>
    first
      | rfl
      | assumption
      | simp_all [unquoteLoop, scanDangling, URes.isPan]

/-- C3 counterexample: on the quote-delimited slice `"ab\"` — where a
backslash is the last interior character — `unquote_string` panics
(the `expect` call) instead of returning a decode error, so it is not
total on all quote-delimited slices. -/
theorem c3_counterexample :
    unquote_string "\"ab\\\"" = .pan "slash cant be at the end" := by decide

/-- C3 amended: for every slice of length at least 2, `unquote_string`
returns a decoded string or a decode error — it panics — exactly when
the escape scan of the interior reaches a backslash as the final
character; on every other input it is total (`ok` or `err`). -/
theorem c3_amended_thm (s : String) (h : 2 ≤ s.length) :
    (unquote_string s).isPan = scanDangling ((s.data.drop 1).dropLast) := by
  unfold unquote_string
  rw [if_pos h]
  exact unquoteLoop_isPan _ _

/-- C3 amended witness at the slice `"a"`. -/
theorem c3_amended_witness :
    (unquote_string "\"a\"").isPan =
      scanDangling ((("\"a\"" : String).data.drop 1).dropLast) :=
  c3_amended_thm "\"a\"" (by decide)

/-! ## C5 -/

/-- C5: for the block string with interior
`"\n    Hello,\n      World!\n    \n"`, the common indentation is 4 and
the decoded result is exactly `"Hello,\n  World!\n"`: the blank first
line contributes nothing and the trailing blank-only line is
removed. -/
theorem c5_thm :
    blockIndent ("\n    Hello,\n      World!\n    \n" : String).data = 4 ∧
      unquote_block_string "\"\"\"\n    Hello,\n      World!\n    \n\"\"\"" =
        some "Hello,\n  World!\n" := by
  exact ⟨by decide, by decide⟩

/-! ## C10 -/

/-- C10: the escape `\b` decodes to U+0010 (DLE) — not U+0008
(backspace) — and `\f` decodes to U+000C (form feed), on every
occurrence (the loop step is independent of the surrounding input) and
in particular on the whole slices `"\b"` and `"\f"`. -/
theorem c10_thm :
    (∀ rest acc, unquoteLoop ('\\' :: 'b' :: rest) acc = unquoteLoop rest (acc ++ ['\u0010'])) ∧
      (∀ rest acc, unquoteLoop ('\\' :: 'f' :: rest) acc = unquoteLoop rest (acc ++ ['\u000C'])) ∧
      unquote_string "\"\\b\"" = .ok "\u0010" ∧
      unquote_string "\"\\f\"" = .ok "\u000C" ∧
      ('\u0010' : Char) ≠ '\u0008' := by
  refine ⟨?_, ?_, by decide, by decide, by decide⟩
  · intro rest acc
    simp [unquoteLoop, simpleEsc?]
  · intro rest acc
    simp [unquoteLoop, simpleEsc?]

/-! ## C9 -/

/-- C9: `as_i64` narrows exactly when the magnitude is at most
`i64::MAX`, `BigNumber.as_u64` exactly when it is below `2^64`, both
value-preserving; and narrowing is not performed at parse time:
`int_value` succeeds on every digit text that fits `u64` (in particular
`u64::MAX` itself), and `bigint_value` accepts `u128::MAX`. -/
theorem c9_thm :
    (∀ n : Number, n.as_i64 = some (n.val : Int) ↔ n.val ≤ i64Max) ∧
      (∀ n : Number, n.as_i64 = none ↔ i64Max < n.val) ∧
      (∀ b : BigNumber, b.as_u64 = some b.val ↔ b.val < 2 ^ 64) ∧
      (∀ b : BigNumber, b.as_u64 = none ↔ 2 ^ 64 ≤ b.val) ∧
      (∀ (ds : String) (n : Nat) (off : Nat) (rest : List Tok),
        parseUNat u64Max ds = some n →
          int_value ⟨off, ⟨TKind.IntValue, ds⟩ :: rest⟩ = .cok (Val.int ⟨n⟩) ⟨off + 1, rest⟩) ∧
      int_value ⟨0, [⟨TKind.IntValue, "18446744073709551615"⟩]⟩ =
        .cok (Val.int ⟨u64Max⟩) ⟨1, []⟩ ∧
      bigint_value ⟨0, [⟨TKind.BigIntValue, "340282366920938463463374607431768211455"⟩]⟩ =
        .cok (Val.bigInt ⟨u128Max⟩) ⟨1, []⟩ := by
  refine ⟨?_, ?_, ?_, ?_, ?_, by rfl, by rfl⟩
  · intro n
    unfold Number.as_i64
    split_ifs with h <;> simp [h]
  · intro n
    unfold Number.as_i64
    split_ifs with h <;> simp [h] <;> omega
  · intro b
    unfold BigNumber.as_u64
    split_ifs with h <;> simp [h] <;> unfold u64Max at h <;> omega
  · intro b
    unfold BigNumber.as_u64
    split_ifs with h <;> simp [h] <;> unfold u64Max at h <;> omega
  · intro ds n off rest h
    unfold int_value pAndThen kindT satisfy
    simp only []
    rw [if_pos (by simp)]
    simp [h]

/-- C9 witness: the parse-time conjunct at the digit text `"1"`. -/
theorem c9_witness :
    int_value ⟨0, [⟨TKind.IntValue, "1"⟩]⟩ = .cok (Val.int ⟨1⟩) ⟨0 + 1, []⟩ :=
  c9_thm.2.2.2.2.1 "1" 1 0 [] (by decide)

/-! ## Helper lemmas: ordered map model -/

theorem char_toNat_inj {a b : Char} (h : a.toNat = b.toNat) : a = b :=
  Char.eq_of_val_eq (by
    apply UInt32.eq_of_val_eq
    exact Fin.eq_of_val_eq h)

theorem charListLt_asymm_total :
    ∀ a b : List Char, charListLt a b = false → a ≠ b → charListLt b a = true := by
  intro a
  induction a with
  | nil =>
    intro b h1 h2
    cases b with
    | nil => exact absurd rfl h2
    | cons y ys => simp [charListLt] at h1
  | cons x xs ih =>
    intro b h1 h2
    cases b with
    | nil => simp [charListLt]
    | cons y ys =>
      simp only [charListLt] at h1 ⊢
      rcases Nat.lt_trichotomy x.toNat y.toNat with hlt | heq | hgt
      · simp [hlt] at h1
      · have hxy : x = y := char_toNat_inj heq
        subst hxy
        simp only [Nat.lt_irrefl, if_false] at h1 ⊢
        exact ih ys h1 (fun hys => h2 (by rw [hys]))
      · simp [hgt, Nat.lt_asymm hgt]

theorem strLt_asymm_total (a b : String) (h1 : strLt a b = false) (h2 : a ≠ b) :
    strLt b a = true := by
  unfold strLt at h1 ⊢
  refine charListLt_asymm_total _ _ h1 (fun hd => h2 ?_)
  cases a
  cases b
  exact congrArg String.mk hd

theorem btInsert_head (k : String) (v : Val) (l : List (String × Val)) :
    (btInsert k v l).head? = some (k, v) ∨ (btInsert k v l).head? = l.head? := by
  cases l with
  | nil => left; rfl
  | cons hd tl =>
    obtain ⟨k', v'⟩ := hd
    unfold btInsert
    split_ifs <;> simp

theorem btInsert_chain (k : String) (v : Val) :
    ∀ l : List (String × Val), l.Chain' (fun a b => strLt a.1 b.1 = true) →
      (btInsert k v l).Chain' (fun a b => strLt a.1 b.1 = true) := by
  intro l
  induction l with
  | nil => intro _; simp [btInsert]
  | cons hd tl ih =>
    intro hl
    obtain ⟨k', v'⟩ := hd
    unfold btInsert
    split_ifs with h1 h2
    · exact (List.chain'_cons).2 ⟨h1, hl⟩
    · subst h2
      rw [List.chain'_cons']
      rw [List.chain'_cons'] at hl
      exact ⟨hl.1, hl.2⟩
    · rw [List.chain'_cons']
      refine ⟨?_, ih (hl.tail)⟩
      intro y hy
      have h1' : strLt k k' = false := by simpa using h1
      rcases btInsert_head k v tl with hh | hh
      · rw [hh] at hy
        simp only [Option.mem_def, Option.some.injEq] at hy
        subst hy
        exact strLt_asymm_total k k' h1' h2
      · rw [hh] at hy
        rw [List.chain'_cons'] at hl
        exact hl.1 y hy

theorem btLookup_insert (k : String) (v : Val) :
    ∀ l : List (String × Val), btLookup k (btInsert k v l) = some v := by
  intro l
  induction l with
  | nil => simp [btInsert, btLookup]
  | cons hd tl ih =>
    obtain ⟨k', v'⟩ := hd
    unfold btInsert
    split_ifs with h1 h2
    · simp [btLookup]
    · simp [btLookup]
    · simp only [btLookup, if_neg h2]
      exact ih

theorem btOfList_chain (ps : List (String × Val)) :
    (btOfList ps).Chain' (fun a b => strLt a.1 b.1 = true) := by
  suffices h : ∀ (qs : List (String × Val)) (acc : List (String × Val)),
      acc.Chain' (fun a b => strLt a.1 b.1 = true) →
      (qs.foldl (fun m kv => btInsert kv.1 kv.2 m) acc).Chain'
        (fun a b => strLt a.1 b.1 = true) by
    exact h ps [] (by simp)
  intro qs
  induction qs with
  | nil => intro acc h; simpa using h
  | cons q qs ih =>
    intro acc h
    exact ih _ (btInsert_chain q.1 q.2 acc h)

/-! ## C7 -/

/-- C7: every object map built by the grammar has its keys in strict
lexicographic order (not insertion order), and a later occurrence of
the same key silently replaces the earlier one; concretely,
`{a: 1, a: 2}` parses (by `value` and by `default_value`) to the
single-entry object `a ↦ 2`, and `{b: 1, a: 2}` parses with key `a`
before key `b`. -/
theorem c7_thm :
    (∀ ps : List (String × Val), (btOfList ps).Chain' (fun a b => strLt a.1 b.1 = true)) ∧
      (∀ (ps : List (String × Val)) (k : String) (v : Val),
        btLookup k (btOfList (ps ++ [(k, v)])) = some v) ∧
      value ⟨0, [⟨TKind.Punctuator, "\x7b"⟩, ⟨TKind.Name, "a"⟩, ⟨TKind.Punctuator, ":"⟩,
          ⟨TKind.IntValue, "1"⟩, ⟨TKind.Name, "a"⟩, ⟨TKind.Punctuator, ":"⟩,
          ⟨TKind.IntValue, "2"⟩, ⟨TKind.Punctuator, "\x7d"⟩]⟩ =
        .cok (Val.object [("a", Val.int ⟨2⟩)]) ⟨8, []⟩ ∧
      value ⟨0, [⟨TKind.Punctuator, "\x7b"⟩, ⟨TKind.Name, "b"⟩, ⟨TKind.Punctuator, ":"⟩,
          ⟨TKind.IntValue, "1"⟩, ⟨TKind.Name, "a"⟩, ⟨TKind.Punctuator, ":"⟩,
          ⟨TKind.IntValue, "2"⟩, ⟨TKind.Punctuator, "\x7d"⟩]⟩ =
        .cok (Val.object [("a", Val.int ⟨2⟩), ("b", Val.int ⟨1⟩)]) ⟨8, []⟩ ∧
      default_value ⟨0, [⟨TKind.Punctuator, "\x7b"⟩, ⟨TKind.Name, "a"⟩, ⟨TKind.Punctuator, ":"⟩,
          ⟨TKind.IntValue, "1"⟩, ⟨TKind.Name, "a"⟩, ⟨TKind.Punctuator, ":"⟩,
          ⟨TKind.IntValue, "2"⟩, ⟨TKind.Punctuator, "\x7d"⟩]⟩ =
        .cok (Val.object [("a", Val.int ⟨2⟩)]) ⟨8, []⟩ := by
  refine ⟨btOfList_chain, ?_, by rfl, by rfl, by rfl⟩
  intro ps k v
  have : btOfList (ps ++ [(k, v)]) = btInsert k v (btOfList ps) := by
    simp [btOfList, List.foldl_append]
  rw [this]
  exact btLookup_insert k v _

/-! ## Inversion lemmas for the combinators -/

theorem pmap_cok {α β : Type} {p : PParser α} {f : α → β} {s s' : TStream} {t : β}
    (h : pmap p f s = .cok t s') : ∃ a, p s = .cok a s' ∧ t = f a := by
  unfold pmap at h
  cases hp : p s <;> rw [hp] at h <;> simp_all

theorem pmap_eok {α β : Type} {p : PParser α} {f : α → β} {s s' : TStream} {t : β}
    (h : pmap p f s = .eok t s') : ∃ a, p s = .eok a s' ∧ t = f a := by
  unfold pmap at h
  cases hp : p s <;> rw [hp] at h <;> simp_all

theorem orP_cok {α : Type} {p q : PParser α} {s s' : TStream} {t : α}
    (h : orP p q s = .cok t s') :
    p s = .cok t s' ∨ ∃ m s1, p s = .eerr m s1 ∧ q s1 = .cok t s' := by
  unfold orP at h
  cases hp : p s <;> rw [hp] at h <;> dsimp only at h
  case cok => simp_all
  case eerr m s1 => exact Or.inr ⟨m, s1, rfl, h⟩
  all_goals simp_all

theorem orP_eok {α : Type} {p q : PParser α} {s s' : TStream} {t : α}
    (h : orP p q s = .eok t s') :
    p s = .eok t s' ∨ ∃ m s1, p s = .eerr m s1 ∧ q s1 = .eok t s' := by
  unfold orP at h
  cases hp : p s <;> rw [hp] at h <;> dsimp only at h
  case eok => simp_all
  case eerr m s1 => exact Or.inr ⟨m, s1, rfl, h⟩
  all_goals simp_all

theorem andP_cok {α β : Type} {p : PParser α} {q : PParser β} {s s' : TStream}
    {a : α} {b : β} (h : andP p q s = .cok (a, b) s') :
    ∃ s1, (p s = .cok a s1 ∨ p s = .eok a s1) ∧
      (q s1 = .cok b s' ∨ q s1 = .eok b s') := by
  unfold andP at h
  cases hp : p s <;> rw [hp] at h <;> dsimp only at h
  case cok a0 s1 =>
    cases hq : q s1 <;> rw [hq] at h <;> dsimp only at h <;> simp_all
  case eok a0 s1 =>
    cases hq : q s1 <;> rw [hq] at h <;> dsimp only at h <;> simp_all
  all_goals simp_all

theorem andP_eok {α β : Type} {p : PParser α} {q : PParser β} {s s' : TStream}
    {a : α} {b : β} (h : andP p q s = .eok (a, b) s') :
    ∃ s1, p s = .eok a s1 ∧ q s1 = .eok b s' := by
  unfold andP at h
  cases hp : p s <;> rw [hp] at h <;> dsimp only at h
  case cok a0 s1 =>
    cases hq : q s1 <;> rw [hq] at h <;> dsimp only at h <;> simp_all
  case eok a0 s1 =>
    cases hq : q s1 <;> rw [hq] at h <;> dsimp only at h <;> simp_all
  all_goals simp_all

theorem satisfy_cok {α : Type} {check : Tok → Bool} {f : Tok → α} {s s' : TStream} {a : α}
    (h : satisfy check f s = .cok a s') :
    ∃ t rest, s.toks = t :: rest ∧ check t = true ∧ a = f t ∧
      s' = ⟨s.offset + 1, rest⟩ := by
  unfold satisfy at h
  cases hts : s.toks <;> rw [hts] at h <;> dsimp only at h
  · simp_all
  · split_ifs at h with hc <;> simp_all
    exact ⟨_, _, ⟨rfl, rfl⟩, hc, h.1.symm, h.2.symm⟩

theorem satisfy_no_eok {α : Type} {check : Tok → Bool} {f : Tok → α} {s s' : TStream} {a : α} :
    satisfy check f s ≠ .eok a s' := by
  unfold satisfy
  cases hts : s.toks <;> simp only [hts]
  · simp
  · split_ifs <;> simp

theorem pmap_eerr {α β : Type} {p : PParser α} {f : α → β} {s s' : TStream} {m : String}
    (h : pmap p f s = .eerr m s') : p s = .eerr m s' := by
  unfold pmap at h
  cases hp : p s <;> rw [hp] at h <;> simp_all

theorem pAndThen_eok {α β : Type} {p : PParser α} {f : α → DRes β} {s s' : TStream} {b : β}
    (h : pAndThen p f s = .eok b s') : ∃ a, p s = .eok a s' ∧ f a = .ok b := by
  unfold pAndThen at h
  cases hp : p s <;> rw [hp] at h <;> dsimp only at h
  case cok a s1 => cases hf : f a <;> rw [hf] at h <;> simp_all
  case eok a s1 =>
    cases hf : f a <;> rw [hf] at h <;> simp_all
  all_goals simp_all

theorem pAndThen_eerr {α β : Type} {p : PParser α} {f : α → DRes β} {s s' : TStream}
    {m : String} (h : pAndThen p f s = .eerr m s') :
    (∃ m1, p s = .eerr m1 s') ∨ ∃ a, p s = .eok a s' := by
  unfold pAndThen at h
  cases hp : p s <;> rw [hp] at h <;> dsimp only at h
  case cok a s1 => cases hf : f a <;> rw [hf] at h <;> simp_all
  case eok a s1 =>
    cases hf : f a <;> rw [hf] at h <;> simp_all
  case eerr m1 s1 =>
    left
    simp_all
  all_goals simp_all

theorem andP_eerr {α β : Type} {p : PParser α} {q : PParser β} {s s' : TStream} {m : String}
    (h : andP p q s = .eerr m s') :
    p s = .eerr m s' ∨ ∃ a s1, p s = .eok a s1 ∧ q s1 = .eerr m s' := by
  unfold andP at h
  cases hp : p s <;> rw [hp] at h <;> dsimp only at h
  case cok a s1 => cases hq : q s1 <;> rw [hq] at h <;> simp_all
  case eok a s1 =>
    cases hq : q s1 <;> rw [hq] at h <;> simp_all
    exact ⟨a, s1, ⟨rfl, rfl⟩, hq⟩
  all_goals simp_all

theorem orP_eerr {α : Type} {p q : PParser α} {s s' : TStream} {m : String}
    (h : orP p q s = .eerr m s') :
    ∃ m1 s1, p s = .eerr m1 s1 ∧ q s1 = .eerr m s' := by
  unfold orP at h
  cases hp : p s <;> rw [hp] at h <;> dsimp only at h <;> simp_all
  exact ⟨_, _, ⟨rfl, rfl⟩, h⟩

theorem optionalP_no_eerr {α : Type} {p : PParser α} {s s' : TStream} {m : String} :
    optionalP p s ≠ .eerr m s' := by
  unfold optionalP
  cases hp : p s <;> dsimp only <;> simp

theorem optionalP_eok {α : Type} {p : PParser α} {s s' : TStream} {x : Option α}
    (h : optionalP p s = .eok x s') :
    (∃ a, p s = .eok a s' ∧ x = some a) ∨ ∃ m1, p s = .eerr m1 s' ∧ x = none := by
  unfold optionalP at h
  cases hp : p s <;> rw [hp] at h <;> simp_all

theorem manyAux_stab {α : Type} {p : PParser α} (hp : Stab p) :
    ∀ (fuel : Nat) (s : TStream) (acc : List α) (c : Bool),
      (∀ a s', manyAux p fuel s acc c = .eok a s' → c = false ∧ s' = s) ∧
      (∀ m s', manyAux p fuel s acc c = .eerr m s' → c = false ∧ s' = s) := by
  intro fuel
  induction fuel with
  | zero =>
    intro s acc c
    constructor <;> intro a s' h <;> simp [manyAux] at h
  | succ fuel ih =>
    intro s acc c
    constructor
    · intro a s' h
      rw [manyAux] at h
      cases hps : p s <;> rw [hps] at h <;> dsimp only at h
      case cok a0 s1 =>
        exact absurd ((ih s1 (acc ++ [a0]) true).1 _ _ h).1 (by simp)
      case eok a0 s1 =>
        have h1 : s1 = s := hp.1 _ _ _ hps
        rw [h1] at h
        exact (ih s (acc ++ [a0]) c).1 a s' h
      case eerr m1 s1 =>
        have h1 : s1 = s := hp.2 _ _ _ hps
        rw [h1] at h
        cases c <;> simp_all
      all_goals simp_all
    · intro m s' h
      rw [manyAux] at h
      cases hps : p s <;> rw [hps] at h <;> dsimp only at h
      case cok a0 s1 =>
        exact absurd ((ih s1 (acc ++ [a0]) true).2 _ _ h).1 (by simp)
      case eok a0 s1 =>
        have h1 : s1 = s := hp.1 _ _ _ hps
        rw [h1] at h
        exact (ih s (acc ++ [a0]) c).2 m s' h
      case eerr m1 s1 =>
        have h1 : s1 = s := hp.2 _ _ _ hps
        rw [h1] at h
        cases c <;> simp_all
      all_goals simp_all

/-! ## Stability: empty outcomes leave the cursor unchanged -/

theorem stab_satisfy {α : Type} (check : Tok → Bool) (f : Tok → α) :
    Stab (satisfy check f) := by
  constructor
  · intro s a s' h
    exact absurd h satisfy_no_eok
  · intro s m s' h
    unfold satisfy at h
    cases hts : s.toks <;> rw [hts] at h <;> dsimp only at h
    · simp_all
    · split_ifs at h <;> simp_all

theorem stab_positionP : Stab positionP := by
  constructor <;> intro s a s' h <;> simp [positionP] at h <;> simp_all

theorem stab_pmap {α β : Type} {p : PParser α} (hp : Stab p) (f : α → β) :
    Stab (pmap p f) := by
  constructor
  · intro s a s' h
    obtain ⟨a0, h0, _⟩ := pmap_eok h
    exact hp.1 _ _ _ h0
  · intro s m s' h
    exact hp.2 _ _ _ (pmap_eerr h)

theorem stab_pAndThen {α β : Type} {p : PParser α} (hp : Stab p) (f : α → DRes β) :
    Stab (pAndThen p f) := by
  constructor
  · intro s b s' h
    obtain ⟨a, h1, _⟩ := pAndThen_eok h
    exact hp.1 _ _ _ h1
  · intro s m s' h
    rcases pAndThen_eerr h with ⟨m1, h1⟩ | ⟨a, h1⟩
    · exact hp.2 _ _ _ h1
    · exact hp.1 _ _ _ h1

theorem stab_andP {α β : Type} {p : PParser α} {q : PParser β}
    (hp : Stab p) (hq : Stab q) : Stab (andP p q) := by
  constructor
  · intro s a s' h
    obtain ⟨a1, b1⟩ := a
    obtain ⟨s1, h1, h2⟩ := andP_eok h
    rw [hq.1 _ _ _ h2, hp.1 _ _ _ h1]
  · intro s m s' h
    rcases andP_eerr h with h1 | ⟨a1, s1, h1, h2⟩
    · exact hp.2 _ _ _ h1
    · rw [hq.2 _ _ _ h2, hp.1 _ _ _ h1]

theorem stab_withP {α β : Type} {p : PParser α} {q : PParser β}
    (hp : Stab p) (hq : Stab q) : Stab (withP p q) :=
  stab_pmap (stab_andP hp hq) _

theorem stab_skipP {α β : Type} {p : PParser α} {q : PParser β}
    (hp : Stab p) (hq : Stab q) : Stab (skipP p q) :=
  stab_pmap (stab_andP hp hq) _

theorem stab_orP {α : Type} {p q : PParser α} (hp : Stab p) (hq : Stab q) :
    Stab (orP p q) := by
  constructor
  · intro s a s' h
    rcases orP_eok h with h1 | ⟨m1, s1, h1, h2⟩
    · exact hp.1 _ _ _ h1
    · rw [hq.1 _ _ _ h2, hp.2 _ _ _ h1]
  · intro s m s' h
    obtain ⟨m1, s1, h1, h2⟩ := orP_eerr h
    rw [hq.2 _ _ _ h2, hp.2 _ _ _ h1]

theorem stab_optionalP {α : Type} {p : PParser α} (hp : Stab p) : Stab (optionalP p) := by
  constructor
  · intro s a s' h
    rcases optionalP_eok h with ⟨a1, h1, _⟩ | ⟨m1, h1, _⟩
    · exact hp.1 _ _ _ h1
    · exact hp.2 _ _ _ h1
  · intro s m s' h
    exact absurd h optionalP_no_eerr

theorem stab_manyP {α : Type} {p : PParser α} (hp : Stab p) : Stab (manyP p) := by
  constructor
  · intro s a s' h
    exact ((manyAux_stab hp _ _ _ _).1 _ _ h).2
  · intro s m s' h
    exact ((manyAux_stab hp _ _ _ _).2 _ _ h).2

theorem stab_many1P {α : Type} {p : PParser α} (hp : Stab p) : Stab (many1P p) :=
  stab_pmap (stab_andP hp (stab_manyP hp)) _

theorem stab_punct (lit : String) : Stab (punct lit) := stab_satisfy _ _

theorem stab_identT (lit : String) : Stab (identT lit) := stab_satisfy _ _

theorem stab_nameT : Stab nameT := stab_satisfy _ _

theorem stab_kindT (k : TKind) : Stab (kindT k) := stab_satisfy _ _

theorem stab_int_value : Stab int_value := stab_pAndThen (stab_kindT _) _

theorem stab_float_value : Stab float_value := stab_pmap (stab_kindT _) _

theorem stab_bigint_value : Stab bigint_value := stab_pAndThen (stab_kindT _) _

theorem stab_string_value : Stab string_value :=
  stab_pmap (stab_pAndThen (stab_kindT _) _) _

theorem stab_block_string_value : Stab block_string_value :=
  stab_pmap (stab_pAndThen (stab_kindT _) _) _

theorem stab_plain_value : Stab plain_value := by
  unfold plain_value
  exact stab_orP (stab_orP (stab_orP (stab_orP (stab_orP (stab_orP (stab_orP (stab_orP
    (stab_pmap (stab_identT _) _)
    (stab_pmap (stab_identT _) _))
    (stab_pmap (stab_identT _) _))
    (stab_pmap stab_nameT _))
    stab_int_value)
    stab_float_value)
    stab_bigint_value)
    stab_string_value)
    stab_block_string_value

theorem stab_varAlt : Stab varAlt :=
  stab_pmap (stab_withP (stab_punct _) stab_nameT) _

theorem stab_listShape {rec : PParser Val} (h : Stab rec) : Stab (listShape rec) :=
  stab_pmap (stab_skipP (stab_withP (stab_punct _) (stab_manyP h)) (stab_punct _)) _

theorem stab_objShape {rec : PParser Val} (h : Stab rec) : Stab (objShape rec) :=
  stab_pmap (stab_skipP (stab_withP (stab_punct _)
    (stab_manyP (stab_andP (stab_skipP stab_nameT (stab_punct _)) h))) (stab_punct _)) _

theorem stab_fuelZero {α : Type} : Stab (fun s => (.eerr "fuel" s : PRes α)) := by
  constructor <;> intro s a s' h <;> simp_all

theorem stab_valueF : ∀ fuel, Stab (valueF fuel) := by
  intro fuel
  induction fuel with
  | zero => exact stab_fuelZero
  | succ fuel ih =>
    rw [valueF]
    exact stab_orP (stab_orP (stab_orP stab_plain_value stab_varAlt)
      (stab_listShape ih)) (stab_objShape ih)

theorem stab_default_valueF : ∀ fuel, Stab (default_valueF fuel) := by
  intro fuel
  induction fuel with
  | zero => exact stab_fuelZero
  | succ fuel ih =>
    rw [default_valueF]
    exact stab_orP (stab_orP stab_plain_value (stab_listShape ih)) (stab_objShape ih)

theorem stab_parse_typeF : ∀ fuel, Stab (parse_typeF fuel) := by
  intro fuel
  induction fuel with
  | zero => exact stab_fuelZero
  | succ fuel ih =>
    rw [parse_typeF]
    exact stab_pmap (stab_andP
      (stab_orP (stab_pmap stab_nameT _)
        (stab_pmap (stab_skipP (stab_withP (stab_punct _) ih) (stab_punct _)) _))
      (stab_pmap (stab_optionalP (stab_punct _)) _)) _

theorem stab_argumentsF (fuel : Nat) : Stab (argumentsF fuel) := by
  rw [argumentsF]
  exact stab_pmap (stab_optionalP (stab_skipP (stab_withP (stab_punct _)
    (stab_many1P (stab_andP (stab_skipP stab_nameT (stab_punct _))
      (stab_valueF fuel)))) (stab_punct _))) _

theorem stab_directivesF (fuel : Nat) : Stab (directivesF fuel) := by
  rw [directivesF]
  exact stab_manyP (stab_pmap (stab_andP (stab_andP
    (stab_skipP stab_positionP (stab_punct _)) stab_nameT) (stab_argumentsF fuel)) _)

/-! ## C4 amended -/

/-- C4 amended: a failed alternative that consumed nothing observable
— an empty error — leaves the cursor exactly where it was, for all
five entry productions, so ordered choice retries the next alternative
from the original position; but (per the counterexample) an
alternative that fails after consuming tokens aborts with the cursor
advanced and is not retried. -/
theorem c4_amended_thm :
    ∀ (s s' : TStream) (m : String),
      (value s = .eerr m s' → s' = s) ∧
      (default_value s = .eerr m s' → s' = s) ∧
      (arguments s = .eerr m s' → s' = s) ∧
      (directives s = .eerr m s' → s' = s) ∧
      (parse_type s = .eerr m s' → s' = s) := by
  intro s s' m
  exact ⟨fun h => (stab_valueF _).2 _ _ _ h,
    fun h => (stab_default_valueF _).2 _ _ _ h,
    fun h => (stab_argumentsF _).2 _ _ _ h,
    fun h => (stab_directivesF _).2 _ _ _ h,
    fun h => (stab_parse_typeF _).2 _ _ _ h⟩

/-- C4 amended witness: `value` on the empty stream fails without
consuming, and the theorem returns the cursor unchanged. -/
theorem c4_amended_witness : (⟨0, []⟩ : TStream) = ⟨0, []⟩ :=
  (c4_amended_thm ⟨0, []⟩ ⟨0, []⟩ "unexpected token").1 (by rfl)

/-! ## Suffix: parsers only move the cursor forward -/

theorem suff_satisfy {α : Type} (check : Tok → Bool) (f : Tok → α) :
    SuffP (satisfy check f) := by
  intro s
  unfold satisfy
  cases hts : s.toks <;> simp only [hts]
  · dsimp only [PRes.rest]
    rw [hts]
  · split_ifs <;> (try dsimp only [PRes.rest])
    · exact List.suffix_cons _ _
    · rw [hts]

theorem suff_positionP : SuffP positionP := by
  intro s
  dsimp only [positionP, PRes.rest]
  exact List.suffix_refl _

theorem suff_pmap {α β : Type} {p : PParser α} (hp : SuffP p) (f : α → β) :
    SuffP (pmap p f) := by
  intro s
  have h1 := hp s
  unfold pmap
  cases hps : p s <;> rw [hps] at h1 <;> dsimp only [PRes.rest] at h1 ⊢ <;> exact h1

theorem suff_pAndThen {α β : Type} {p : PParser α} (hp : SuffP p) (f : α → DRes β) :
    SuffP (pAndThen p f) := by
  intro s
  have h1 := hp s
  unfold pAndThen
  cases hps : p s <;> rw [hps] at h1 <;> dsimp only [PRes.rest] at h1 ⊢
  case cok a s1 => cases f a <;> dsimp only [PRes.rest] <;> exact h1
  case eok a s1 => cases f a <;> dsimp only [PRes.rest] <;> exact h1
  all_goals exact h1

theorem suff_andP {α β : Type} {p : PParser α} {q : PParser β}
    (hp : SuffP p) (hq : SuffP q) : SuffP (andP p q) := by
  intro s
  have h1 := hp s
  unfold andP
  cases hps : p s <;> rw [hps] at h1 <;> dsimp only [PRes.rest] at h1 ⊢
  case cok a s1 =>
    have h2 := hq s1
    cases hqs : q s1 <;> rw [hqs] at h2 <;> dsimp only [PRes.rest] at h2 ⊢ <;>
      exact h2.trans h1
  case eok a s1 =>
    have h2 := hq s1
    cases hqs : q s1 <;> rw [hqs] at h2 <;> dsimp only [PRes.rest] at h2 ⊢ <;>
      exact h2.trans h1
  all_goals exact h1

theorem suff_withP {α β : Type} {p : PParser α} {q : PParser β}
    (hp : SuffP p) (hq : SuffP q) : SuffP (withP p q) :=
  suff_pmap (suff_andP hp hq) _

theorem suff_skipP {α β : Type} {p : PParser α} {q : PParser β}
    (hp : SuffP p) (hq : SuffP q) : SuffP (skipP p q) :=
  suff_pmap (suff_andP hp hq) _

theorem suff_orP {α : Type} {p q : PParser α} (hp : SuffP p) (hq : SuffP q) :
    SuffP (orP p q) := by
  intro s
  have h1 := hp s
  unfold orP
  cases hps : p s <;> rw [hps] at h1 <;> dsimp only [PRes.rest] at h1 ⊢
  case eerr m s1 => exact (hq s1).trans h1
  all_goals exact h1

theorem suff_optionalP {α : Type} {p : PParser α} (hp : SuffP p) : SuffP (optionalP p) := by
  intro s
  have h1 := hp s
  unfold optionalP
  cases hps : p s <;> rw [hps] at h1 <;> dsimp only [PRes.rest] at h1 ⊢ <;> exact h1

theorem suff_manyAux {α : Type} {p : PParser α} (hp : SuffP p) :
    ∀ (fuel : Nat) (s : TStream) (acc : List α) (c : Bool),
      ((manyAux p fuel s acc c).rest).toks.IsSuffix s.toks := by
  intro fuel
  induction fuel with
  | zero =>
    intro s acc c
    dsimp only [manyAux, PRes.rest]
    exact List.suffix_refl _
  | succ fuel ih =>
    intro s acc c
    rw [manyAux]
    have h1 := hp s
    cases hps : p s <;> rw [hps] at h1 <;> dsimp only [PRes.rest] at h1 ⊢
    case cok a s1 => exact (ih s1 _ _).trans h1
    case eok a s1 => exact (ih s1 _ _).trans h1
    case eerr m s1 => cases c <;> (try dsimp only [PRes.rest]) <;> exact h1
    all_goals exact h1

theorem suff_manyP {α : Type} {p : PParser α} (hp : SuffP p) : SuffP (manyP p) :=
  fun s => suff_manyAux hp _ s [] false

theorem suff_many1P {α : Type} {p : PParser α} (hp : SuffP p) : SuffP (many1P p) :=
  suff_pmap (suff_andP hp (suff_manyP hp)) _

theorem suff_plain_value : SuffP plain_value := by
  unfold plain_value
  exact suff_orP (suff_orP (suff_orP (suff_orP (suff_orP (suff_orP (suff_orP (suff_orP
    (suff_pmap (suff_satisfy _ _) _)
    (suff_pmap (suff_satisfy _ _) _))
    (suff_pmap (suff_satisfy _ _) _))
    (suff_pmap (suff_satisfy _ _) _))
    (suff_pAndThen (suff_satisfy _ _) _))
    (suff_pmap (suff_satisfy _ _) _))
    (suff_pAndThen (suff_satisfy _ _) _))
    (suff_pmap (suff_pAndThen (suff_satisfy _ _) _) _))
    (suff_pmap (suff_pAndThen (suff_satisfy _ _) _) _)

theorem suff_varAlt : SuffP varAlt :=
  suff_pmap (suff_withP (suff_satisfy _ _) (suff_satisfy _ _)) _

theorem suff_listShape {rec : PParser Val} (h : SuffP rec) : SuffP (listShape rec) :=
  suff_pmap (suff_skipP (suff_withP (suff_satisfy _ _) (suff_manyP h))
    (suff_satisfy _ _)) _

theorem suff_objShape {rec : PParser Val} (h : SuffP rec) : SuffP (objShape rec) :=
  suff_pmap (suff_skipP (suff_withP (suff_satisfy _ _)
    (suff_manyP (suff_andP (suff_skipP (suff_satisfy _ _) (suff_satisfy _ _)) h)))
    (suff_satisfy _ _)) _

theorem suff_fuelZero {α : Type} : SuffP (fun s => (.eerr "fuel" s : PRes α)) := by
  intro s
  dsimp only [PRes.rest]
  exact List.suffix_refl _

theorem suff_valueF : ∀ fuel, SuffP (valueF fuel) := by
  intro fuel
  induction fuel with
  | zero => exact suff_fuelZero
  | succ fuel ih =>
    rw [valueF]
    exact suff_orP (suff_orP (suff_orP suff_plain_value suff_varAlt)
      (suff_listShape ih)) (suff_objShape ih)

theorem suff_default_valueF : ∀ fuel, SuffP (default_valueF fuel) := by
  intro fuel
  induction fuel with
  | zero => exact suff_fuelZero
  | succ fuel ih =>
    rw [default_valueF]
    exact suff_orP (suff_orP suff_plain_value (suff_listShape ih)) (suff_objShape ih)

/-! ## Agreement of `value` and `default_value` off `$` -/

theorem noDollar_suffix {ts ts' : List Tok} (h : NoDollar ts) (hs : ts'.IsSuffix ts) :
    NoDollar ts' :=
  fun t ht => h t (hs.subset ht)

theorem nd_varAlt (s : TStream) (hnd : NoDollar s.toks) :
    varAlt s = .eerr "unexpected token" s := by
  have hsat : punct "$" s = .eerr "unexpected token" s := by
    unfold punct satisfy
    cases hts : s.toks
    · simp [hts]
    · rename_i t rest
      simp only [hts]
      have hc := hnd t (by rw [hts]; exact List.mem_cons_self t rest)
      simp [hc]
  unfold varAlt withP pmap andP
  rw [hsat]

theorem agree_manyAux {α : Type} {p q : PParser α}
    (hsuff : SuffP p)
    (hpq : ∀ s, NoDollar s.toks → p s = q s) :
    ∀ (fuel : Nat) (s : TStream) (acc : List α) (c : Bool),
      NoDollar s.toks → manyAux p fuel s acc c = manyAux q fuel s acc c := by
  intro fuel
  induction fuel with
  | zero => intro s acc c _; rfl
  | succ fuel ih =>
    intro s acc c hnd
    rw [manyAux, manyAux, ← hpq s hnd]
    have hsu := hsuff s
    cases hps : p s <;> rw [hps] at hsu <;> dsimp only [PRes.rest] at hsu <;> dsimp only
    case cok a s1 => exact ih s1 _ _ (noDollar_suffix hnd hsu)
    case eok a s1 => exact ih s1 _ _ (noDollar_suffix hnd hsu)
    all_goals rfl

theorem agree_manyP {α : Type} {p q : PParser α}
    (hsuff : SuffP p)
    (hpq : ∀ s, NoDollar s.toks → p s = q s) :
    ∀ s, NoDollar s.toks → manyP p s = manyP q s := by
  intro s hnd
  unfold manyP
  exact agree_manyAux hsuff hpq _ s [] false hnd

theorem agree_andP_right {α β : Type} {p : PParser α} {q q' : PParser β}
    (hsuff : SuffP p)
    (hqq : ∀ s, NoDollar s.toks → q s = q' s) :
    ∀ s, NoDollar s.toks → andP p q s = andP p q' s := by
  intro s hnd
  unfold andP
  have hsu := hsuff s
  cases hps : p s <;> rw [hps] at hsu <;> dsimp only [PRes.rest] at hsu <;> dsimp only
  case cok a s1 => rw [hqq s1 (noDollar_suffix hnd hsu)]
  case eok a s1 => rw [hqq s1 (noDollar_suffix hnd hsu)]
  all_goals rfl

theorem agree_andP_left {α β : Type} {p p' : PParser α} {q : PParser β}
    (hpp : ∀ s, NoDollar s.toks → p s = p' s) :
    ∀ s, NoDollar s.toks → andP p q s = andP p' q s := by
  intro s hnd
  unfold andP
  rw [hpp s hnd]

theorem agree_pmap {α β : Type} {p p' : PParser α} {f : α → β}
    (hpp : ∀ s, NoDollar s.toks → p s = p' s) :
    ∀ s, NoDollar s.toks → pmap p f s = pmap p' f s := by
  intro s hnd
  unfold pmap
  rw [hpp s hnd]

theorem agree_listShape {r r' : PParser Val}
    (hsuff : SuffP r)
    (hrr : ∀ s, NoDollar s.toks → r s = r' s) :
    ∀ s, NoDollar s.toks → listShape r s = listShape r' s := by
  unfold listShape withP skipP
  intro s hnd
  apply agree_pmap (f := Val.list) ?_ s hnd
  apply agree_pmap
  apply agree_andP_left
  apply agree_pmap
  exact agree_andP_right (suff_satisfy _ _) (agree_manyP hsuff hrr)

theorem agree_objShape {r r' : PParser Val}
    (hsuff : SuffP r)
    (hrr : ∀ s, NoDollar s.toks → r s = r' s) :
    ∀ s, NoDollar s.toks → objShape r s = objShape r' s := by
  unfold objShape withP skipP
  intro s hnd
  apply agree_pmap ?_ s hnd
  apply agree_pmap
  apply agree_andP_left
  apply agree_pmap
  apply agree_andP_right (suff_satisfy _ _)
  apply agree_manyP (suff_andP (suff_skipP (suff_satisfy _ _) (suff_satisfy _ _)) hsuff)
  exact agree_andP_right (suff_skipP (suff_satisfy _ _) (suff_satisfy _ _)) hrr

theorem valueF_eq_default_valueF :
    ∀ (fuel : Nat) (s : TStream), NoDollar s.toks →
      valueF fuel s = default_valueF fuel s := by
  intro fuel
  induction fuel with
  | zero => intro s _; rfl
  | succ fuel ih =>
    intro s hnd
    rw [valueF, default_valueF]
    have hlist := agree_listShape (suff_valueF fuel) ih
    have hobj := agree_objShape (suff_valueF fuel) ih
    unfold orP
    cases hps : plain_value s <;> dsimp only
    case eerr m s1 =>
      have hs1 : s1 = s := stab_plain_value.2 _ _ _ hps
      have hnd1 : NoDollar s1.toks := by rw [hs1]; exact hnd
      rw [nd_varAlt s1 hnd1]
      dsimp only
      rw [hlist s1 hnd1]
      cases hl : listShape (default_valueF fuel) s1 <;> dsimp only
      case eerr m2 s2 =>
        have hs2 : s2 = s1 := (stab_listShape (stab_default_valueF fuel)).2 _ _ _ hl
        exact hobj s2 (by rw [hs2]; exact hnd1)
      all_goals rfl
    all_goals rfl

/-! ## C6 -/

/-- C6: on every token stream beginning with a `$` punctuator followed
by a name token, `value` succeeds with a `Variable` holding that name
while `default_value` fails with an unexpected-token error at the
original position; and away from `$` punctuators the two grammars are
the same: on every `$`-free stream they return identical results, so
`default_value` is exactly `value` with the variable alternative
omitted. -/
theorem c6_thm :
    (∀ (off : Nat) (n : String) (rest : List Tok),
      value ⟨off, ⟨TKind.Punctuator, "$"⟩ :: ⟨TKind.Name, n⟩ :: rest⟩ =
        .cok (Val.var n) ⟨off + 2, rest⟩) ∧
      (∀ (off : Nat) (n : String) (rest : List Tok),
        default_value ⟨off, ⟨TKind.Punctuator, "$"⟩ :: ⟨TKind.Name, n⟩ :: rest⟩ =
          .eerr "unexpected token"
            ⟨off, ⟨TKind.Punctuator, "$"⟩ :: ⟨TKind.Name, n⟩ :: rest⟩) ∧
      (∀ s : TStream, NoDollar s.toks → value s = default_value s) := by
  refine ⟨?_, ?_, ?_⟩
  · intro off n rest
    rfl
  · intro off n rest
    rfl
  · intro s hnd
    exact valueF_eq_default_valueF _ s hnd

/-- C6 witness: the `$`-free conjunct applied to the empty stream. -/
theorem c6_witness : value ⟨0, []⟩ = default_value ⟨0, []⟩ :=
  c6_thm.2.2 ⟨0, []⟩ (by intro t ht; cases ht)

/-! ## C8 -/

/-- C8: every successful `parse_type` yields a bare name or list type,
optionally wrapped in a single non-null wrapper (the `!` suffix binds
to the type expression just parsed, and at most one wrapper is added
at the top); concretely, `[String!]!` parses as
`NonNullType (ListType (NonNullType (NamedType "String")))`. -/
theorem c8_thm :
    (∀ (fuel : Nat) (s : TStream) (t : Ty) (s' : TStream),
      parse_typeF fuel s = .cok t s' → okShape t = true) ∧
      (∀ (s : TStream) (t : Ty) (s' : TStream),
        parse_type s = .cok t s' → okShape t = true) ∧
      parse_type ⟨0, [⟨TKind.Punctuator, "["⟩, ⟨TKind.Name, "String"⟩, ⟨TKind.Punctuator, "!"⟩,
          ⟨TKind.Punctuator, "]"⟩, ⟨TKind.Punctuator, "!"⟩]⟩ =
        .cok (Ty.nonNullType (Ty.listType (Ty.nonNullType (Ty.namedType "String")))) ⟨5, []⟩ := by
  have main : ∀ (fuel : Nat) (s : TStream) (t : Ty) (s' : TStream),
      parse_typeF fuel s = .cok t s' → okShape t = true := by
    intro fuel s t s' h
    cases fuel with
    | zero => simp [parse_typeF] at h
    | succ fuel =>
      rw [parse_typeF] at h
      obtain ⟨⟨typ, strict⟩, hand, rfl⟩ := pmap_cok h
      obtain ⟨s1, hB, _⟩ := andP_cok hand
      have hbare : isBare typ = true := by
        rcases hB with hB | hB
        · rcases orP_cok hB with hn | ⟨m, s2, _, hl⟩
          · obtain ⟨nm, _, rfl⟩ := pmap_cok hn
            rfl
          · obtain ⟨inner, _, rfl⟩ := pmap_cok hl
            rfl
        · rcases orP_eok hB with hn | ⟨m, s2, _, hl⟩
          · obtain ⟨nm, _, rfl⟩ := pmap_eok hn
            rfl
          · obtain ⟨inner, _, rfl⟩ := pmap_eok hl
            rfl
      cases strict
      · simpa [okShape, isBare] using (by cases typ <;> simp_all [isBare, okShape] : okShape typ = true)
      · simpa [okShape] using hbare
  exact ⟨main, fun s => main _ s, by rfl⟩

/-- C8 witness: the universal conjunct applied to the concrete
`[String!]!` stream. -/
theorem c8_witness :
    okShape (Ty.nonNullType (Ty.listType (Ty.nonNullType (Ty.namedType "String")))) = true :=
  c8_thm.1 6 ⟨0, [⟨TKind.Punctuator, "["⟩, ⟨TKind.Name, "String"⟩, ⟨TKind.Punctuator, "!"⟩,
    ⟨TKind.Punctuator, "]"⟩, ⟨TKind.Punctuator, "!"⟩]⟩
    (Ty.nonNullType (Ty.listType (Ty.nonNullType (Ty.namedType "String")))) ⟨5, []⟩ (by rfl)

/-! ## C4 counterexample -/

/-- C4 counterexample: `value` applied to the token stream `[` `1`
(no closing bracket) fails after consuming: the result is a consumed
error whose stream sits at offset 2, not at the original offset 0 — a
failed alternative that has matched its opening token does not restore
the cursor, and the following object alternative is never tried. -/
theorem c4_counterexample :
    value ⟨0, [⟨TKind.Punctuator, "["⟩, ⟨TKind.IntValue, "1"⟩]⟩ =
        .cerr "unexpected token" ⟨2, []⟩ ∧
      (⟨2, []⟩ : TStream).offset ≠ (⟨0, [⟨TKind.Punctuator, "["⟩,
        ⟨TKind.IntValue, "1"⟩]⟩ : TStream).offset := by
  exact ⟨by rfl, by decide⟩

end GqlParser
